import Mathlib

/-!
Shallow embedding of the reactive-computation engine in `src/react/src/lib.rs`.

The Rust `Table<K, T>` is a `BTreeMap<K, T>` with an auto-incrementing
key counter (`index`); it is modelled here as an association list of
`Nat × α` pairs kept in the map's ascending-key order, together with the
counter.  `btInsert` mirrors `BTreeMap::insert` (replace if the key is
present, otherwise insert in key order), `btGet` mirrors `get`, and
`btRemove` mirrors `remove` (remove the first matching key, no change
when absent).

Callbacks in the Rust code are stateful closures `FnMut(T)`; they do not
touch the reactor, so their observable behaviour is the sequence of
invocations.  The embedding stores a `Table Unit` of registered callback
identifiers per compute cell, and the propagation pass (`react`) returns
the list of invocation events `(compute cell id, callback id, value)` in
the order the Rust code would fire them.
-/

namespace React

abbrev InputCellId := Nat
abbrev ComputeCellId := Nat
abbrev CallbackId := Nat

inductive CellId where
  | Input : InputCellId → CellId
  | Compute : ComputeCellId → CellId
deriving DecidableEq, Repr

/-- The ordered association list underlying `BTreeMap::insert`:
replace when the key already exists, otherwise place the new pair in
ascending key order. -/
def btInsert (k : Nat) (v : α) : List (Nat × α) → List (Nat × α)
  | [] => [(k, v)]
  | p :: rest =>
    if k < p.1 then (k, v) :: p :: rest
    else if k = p.1 then (k, v) :: rest
    else p :: btInsert k v rest

/-- `BTreeMap::get`. -/
def btGet (k : Nat) : List (Nat × α) → Option α
  | [] => none
  | p :: rest => if k = p.1 then some p.2 else btGet k rest

/-- `BTreeMap::remove`: returns the removed value (if any) and the
remaining list. -/
def btRemove (k : Nat) : List (Nat × α) → Option α × List (Nat × α)
  | [] => (none, [])
  | p :: rest =>
    if k = p.1 then (some p.2, rest)
    else
      let r := btRemove k rest
      (r.1, p :: r.2)

/-- `Table<K, T>`: a `BTreeMap` plus the next identifier to assign. -/
structure Table (α : Type) where
  data : List (Nat × α)
  index : Nat

/-- `Table::new`. -/
def Table.new : Table α := ⟨[], 0⟩

/-- `Table::insert`: assigns the current `index` as the key, stores the
value, bumps the counter, and returns the assigned key. -/
def Table.insert (t : Table α) (elem : α) : Nat × Table α :=
  (t.index, ⟨btInsert t.index elem t.data, t.index + 1⟩)

/-- `Table::get`. -/
def Table.get (t : Table α) (k : Nat) : Option α := btGet k t.data

/-- `Table::remove` (the counter is left untouched). -/
def Table.remove (t : Table α) (k : Nat) : Option α × Table α :=
  let r := btRemove k t.data
  (r.1, ⟨r.2, t.index⟩)

/-- In-place update of an existing entry (`Table::get_mut` followed by a
write through the mutable reference). -/
def Table.set (t : Table α) (k : Nat) (v : α) : Table α :=
  ⟨btInsert k v t.data, t.index⟩

/-- The ascending key list of a table. -/
def Table.keys (t : Table α) : List Nat := t.data.map Prod.fst

/-- `ComputeCell`: cached value, ordered dependency list, recompute
function and the private callback table (callback bodies carry no
reactor-visible data, so the table stores `Unit`). -/
structure ComputeCell (T : Type) where
  value : T
  dependencies : List CellId
  func : List T → T
  callbacks : Table Unit

inductive RemoveCallbackError where
  | NonexistentCell : RemoveCallbackError
  | NonexistentCallback : RemoveCallbackError
deriving DecidableEq, Repr

/-- `Reactor`: the input-cell store and the compute-cell store.  An
`InputCell` is just its value. -/
structure Reactor (T : Type) where
  inputs : Table T
  computes : Table (ComputeCell T)

/-- `Reactor::new`. -/
def Reactor.new : Reactor T := ⟨Table.new, Table.new⟩

/-- `Reactor::value`: dispatch on the reference kind and read the
stored/cached value; `none` when the identifier is unknown. -/
def Reactor.value (r : Reactor T) : CellId → Option T
  | CellId.Input id => r.inputs.get id
  | CellId.Compute id => (r.computes.get id).map ComputeCell.value

/-- `Reactor::create_input`. -/
def Reactor.create_input (r : Reactor T) (initial : T) : InputCellId × Reactor T :=
  let p := r.inputs.insert initial
  (p.1, { r with inputs := p.2 })

/-- `dependencies.iter().map(|&cell| self.value(cell).ok_or(cell)).collect()`:
resolve every dependency, short-circuiting at the first missing one. -/
def collectDeps (r : Reactor T) : List CellId → Except CellId (List T)
  | [] => Except.ok []
  | d :: ds =>
    match r.value d with
    | none => Except.error d
    | some v => (collectDeps r ds).map (fun vs => v :: vs)

/-- `Reactor::create_compute`: on a missing dependency, error with that
reference and leave the reactor untouched; otherwise store the new cell
(initial value computed once, empty callback table) and return its id. -/
def Reactor.create_compute (r : Reactor T) (dependencies : List CellId)
    (compute_func : List T → T) : Except CellId ComputeCellId × Reactor T :=
  match collectDeps r dependencies with
  | Except.error c => (Except.error c, r)
  | Except.ok dep_values =>
    let value := compute_func dep_values
    let cell : ComputeCell T :=
      { value := value, dependencies := dependencies
        func := compute_func, callbacks := Table.new }
    let p := r.computes.insert cell
    (Except.ok p.1, { r with computes := p.2 })

/-- A callback invocation: (owning compute cell, callback id, value passed). -/
abbrev Event (T : Type) := ComputeCellId × CallbackId × T

/-- One iteration of the loop body of `Reactor::react` at compute cell
`k`: recompute from the current dependency values and, when the result
differs from the cache, overwrite the cache and fire every registered
callback (ascending id order) with the new value. -/
def reactStep [DecidableEq T] (r : Reactor T) (k : Nat) : Reactor T × List (Event T) :=
  match r.computes.get k with
  | none => (r, [])
  | some cell =>
    let dep_values := cell.dependencies.filterMap r.value
    let value := cell.func dep_values
    if value = cell.value then (r, [])
    else
      ({ r with computes := r.computes.set k { cell with value := value } },
       cell.callbacks.data.map (fun p => (k, p.1, value)))

/-- The loop of `Reactor::react` over a key list, collecting the fired
callback events in order. -/
def reactGo [DecidableEq T] : List Nat → Reactor T → Reactor T × List (Event T)
  | [], r => (r, [])
  | k :: ks, r =>
    let s := reactStep r k
    let rest := reactGo ks s.1
    (rest.1, s.2 ++ rest.2)

/-- `Reactor::react`: walk every compute cell in ascending identifier
order. -/
def Reactor.react [DecidableEq T] (r : Reactor T) : Reactor T × List (Event T) :=
  reactGo r.computes.keys r

/-- `Reactor::set_value`: `false` and no effect on an unknown input id;
otherwise overwrite the input and run one propagation pass. -/
def Reactor.set_value [DecidableEq T] (r : Reactor T) (id : InputCellId)
    (new_value : T) : Bool × Reactor T × List (Event T) :=
  match r.inputs.get id with
  | some _ =>
    let s := Reactor.react { r with inputs := r.inputs.set id new_value }
    (true, s.1, s.2)
  | none => (false, r, [])

/-- `Reactor::add_callback`: `none` on an unknown compute cell, else
insert into that cell's callback table and return the new id. -/
def Reactor.add_callback (r : Reactor T) (id : ComputeCellId) :
    Option CallbackId × Reactor T :=
  match r.computes.get id with
  | some cell =>
    let p := cell.callbacks.insert ()
    (some p.1, { r with computes := r.computes.set id { cell with callbacks := p.2 } })
  | none => (none, r)

/-- `Reactor::remove_callback`. -/
def Reactor.remove_callback (r : Reactor T) (cell : ComputeCellId)
    (callback : CallbackId) : Except RemoveCallbackError Unit × Reactor T :=
  match r.computes.get cell with
  | some c =>
    match c.callbacks.remove callback with
    | (some _, cbs) =>
      (Except.ok (), { r with computes := r.computes.set cell { c with callbacks := cbs } })
    | (none, _) => (Except.error RemoveCallbackError.NonexistentCallback, r)
  | none => (Except.error RemoveCallbackError.NonexistentCell, r)

/-- Invariant maintained by every `Table` built through its interface:
keys are in strictly ascending order and below the next-id counter. -/
def Table.WF (t : Table α) : Prop :=
  t.keys.Pairwise (· < ·) ∧ ∀ k ∈ t.keys, k < t.index

/-- Everything of a compute cell except its cached value. -/
def cellShape (c : ComputeCell T) : List CellId × (List T → T) × Table Unit :=
  (c.dependencies, c.func, c.callbacks)

/-- Dependency well-formedness: every dependency of every compute cell
resolves, and a compute-cell dependency points strictly below its
owner's identifier (the spec's topological-order invariant). -/
def depsWF (r : Reactor T) : Prop :=
  ∀ p ∈ r.computes.data, ∀ d ∈ p.2.dependencies,
    (r.value d).isSome ∧ ∀ j, d = CellId.Compute j → j < p.1

/-- Reactor well-formedness: both stores and every callback table are
well-formed tables and the dependency invariant holds. -/
def Reactor.WF (r : Reactor T) : Prop :=
  r.inputs.WF ∧ r.computes.WF ∧
    (∀ p ∈ r.computes.data, p.2.callbacks.WF) ∧ depsWF r

/-- The cache-coherence property: every compute cell's cached value is
its function applied to the current values of its dependencies. -/
def Coherent (r : Reactor T) : Prop :=
  ∀ k c, r.computes.get k = some c →
    c.value = c.func (c.dependencies.filterMap r.value)

/-- The reactor after the cache of cell `k` is overwritten with `v`. -/
def writeCell (r : Reactor T) (k : Nat) (cell : ComputeCell T) (v : T) : Reactor T :=
  { r with computes := r.computes.set k { cell with value := v } }

/-- The reactor after cell `id`'s callback table is replaced by `t`. -/
def setCallbacks (r : Reactor T) (id : Nat) (cell : ComputeCell T) (t : Table Unit) : Reactor T :=
  { r with computes := r.computes.set id { cell with callbacks := t } }

/-- The sub-sequence of events belonging to compute cell `k`. -/
def eventsFor (k : Nat) (evs : List (Event T)) : List (Event T) :=
  evs.filter (fun e => decide (e.1 = k))


/-! ### Proof-support definitions -/

/-- Applying a list of `set_value` calls in sequence, concatenating the
callback events they fire. -/
def setValueTrace [DecidableEq T] : Reactor T → List (Nat × T) → List (Event T)
  | _, [] => []
  | r, (id, v) :: rest =>
    (r.set_value id v).2.2 ++ setValueTrace (r.set_value id v).2.1 rest

/-- An operation on a `Table`: an insertion or a removal. -/
inductive TableOp (α : Type) where
  | ins : α → TableOp α
  | del : Nat → TableOp α

def TableOp.isIns : TableOp α → Bool
  | ins _ => true
  | del _ => false

/-- Run a list of table operations, returning the final table and the
keys assigned by the insertions, in order. -/
def runOps : Table α → List (TableOp α) → Table α × List Nat
  | t, [] => (t, [])
  | t, TableOp.ins v :: ops =>
    let p := t.insert v
    let rest := runOps p.2 ops
    (rest.1, p.1 :: rest.2)
  | t, TableOp.del k :: ops => runOps (t.remove k).2 ops


/-- The reactor states reachable through the public interface. -/
inductive Reachable [DecidableEq T] : Reactor T → Prop where
  | new : Reachable Reactor.new
  | create_input (r : Reactor T) (v : T) :
      Reachable r → Reachable (r.create_input v).2
  | create_compute (r : Reactor T) (deps : List CellId) (f : List T → T) :
      Reachable r → Reachable (r.create_compute deps f).2
  | set_value (r : Reactor T) (id : Nat) (v : T) :
      Reachable r → Reachable (r.set_value id v).2.1
  | add_callback (r : Reactor T) (id : Nat) :
      Reachable r → Reachable (r.add_callback id).2
  | remove_callback (r : Reactor T) (id cb : Nat) :
      Reachable r → Reachable (r.remove_callback id cb).2

/-- Callback `cb` is not registered on compute cell `cell`. -/
def cbAbsent (r : Reactor T) (cell cb : Nat) : Prop :=
  ∀ c, r.computes.get cell = some c → c.callbacks.get cb = none

/-! ### Concrete example states used to instantiate the theorems -/

/-- Example: an empty reactor. -/
def wReactor0 : Reactor Nat := Reactor.new

/-- Example: one input cell `0` holding `1`. -/
def wReactor1 : Reactor Nat := (wReactor0.create_input 1).2

/-- Example: adds compute cell `0` = input `0` + 1. -/
def wReactor2 : Reactor Nat :=
  (wReactor1.create_compute [CellId.Input 0] (fun xs => xs.headD 0 + 1)).2

/-- Example: adds callback `0` on compute cell `0`. -/
def wReactor3 : Reactor Nat := (wReactor2.add_callback 0).2

/-- Example: adds compute cell `1` = compute `0` * 2 (a two-deep chain). -/
def wReactor4 : Reactor Nat :=
  (wReactor3.create_compute [CellId.Compute 0] (fun xs => xs.headD 0 * 2)).2

/-- The callback table of compute cell `0` in `wReactor4`. -/
def wCbTable : Table Unit := ⟨[(0, ())], 1⟩

/-- Compute cell `0` of `wReactor4` before `set_value 0 5`. -/
def wCellOld0 : ComputeCell Nat :=
  { value := 2, dependencies := [CellId.Input 0]
    func := fun xs => xs.headD 0 + 1, callbacks := wCbTable }

/-- Compute cell `0` of `wReactor4` after `set_value 0 5`. -/
def wCellNew0 : ComputeCell Nat :=
  { value := 6, dependencies := [CellId.Input 0]
    func := fun xs => xs.headD 0 + 1, callbacks := wCbTable }

/-- Compute cell `1` of `wReactor4` after `set_value 0 5`. -/
def wCell1 : ComputeCell Nat :=
  { value := 12, dependencies := [CellId.Compute 0]
    func := fun xs => xs.headD 0 * 2, callbacks := Table.new }

/-! ### Association-list lemmas -/

theorem btGet_btInsert_self (k : Nat) (v : α) (l : List (Nat × α)) :
    btGet k (btInsert k v l) = some v := by
  induction l with
  | nil => simp [btInsert, btGet]
  | cons p rest ih =>
    by_cases h1 : k < p.1
    · simp [btInsert, btGet, h1]
    · by_cases h2 : k = p.1
      · simp [btInsert, btGet, h1, h2]
      · simp [btInsert, btGet, h1, h2, ih]

theorem btGet_btInsert_ne (hk : k' ≠ k) (v : α) (l : List (Nat × α)) :
    btGet k' (btInsert k v l) = btGet k' l := by
  induction l with
  | nil => simp [btInsert, btGet, hk]
  | cons p rest ih =>
    by_cases h1 : k < p.1
    · simp [btInsert, btGet, h1, hk]
    · by_cases h2 : k = p.1
      · subst h2
        simp [btInsert, btGet, h1, hk]
      · by_cases h3 : k' = p.1
        · simp [btInsert, btGet, h1, h2, h3]
        · simp [btInsert, btGet, h1, h2, h3, ih]

theorem btGet_eq_none_iff (k : Nat) (l : List (Nat × α)) :
    btGet k l = none ↔ k ∉ l.map Prod.fst := by
  induction l with
  | nil => simp [btGet]
  | cons p rest ih =>
    by_cases h : k = p.1
    · simp [btGet, h]
    · simp [btGet, h, ih]

theorem btGet_isSome_iff (k : Nat) (l : List (Nat × α)) :
    (btGet k l).isSome ↔ k ∈ l.map Prod.fst := by
  rw [Option.isSome_iff_ne_none]
  constructor
  · intro h
    by_contra hc
    exact h ((btGet_eq_none_iff k l).mpr hc)
  · intro h hn
    exact (btGet_eq_none_iff k l).mp hn h

theorem btGet_mem (k : Nat) (v : α) (l : List (Nat × α))
    (h : btGet k l = some v) : (k, v) ∈ l := by
  induction l with
  | nil => simp [btGet] at h
  | cons p rest ih =>
    by_cases h1 : k = p.1
    · subst h1
      simp [btGet] at h
      subst h
      exact List.mem_cons_self _ _
    · simp [btGet, h1] at h
      exact List.mem_cons_of_mem _ (ih h)

theorem mem_btInsert (p : Nat × α) (k : Nat) (v : α) (l : List (Nat × α))
    (h : p ∈ btInsert k v l) : p = (k, v) ∨ p ∈ l := by
  induction l with
  | nil =>
    simp only [btInsert, List.mem_singleton] at h
    exact Or.inl h
  | cons q rest ih =>
    simp only [btInsert] at h
    by_cases h1 : k < q.1
    · rw [if_pos h1] at h
      exact (List.mem_cons.mp h).imp id id
    · rw [if_neg h1] at h
      by_cases h2 : k = q.1
      · rw [if_pos h2] at h
        rcases List.mem_cons.mp h with h | h
        · exact Or.inl h
        · exact Or.inr (List.mem_cons_of_mem _ h)
      · rw [if_neg h2] at h
        rcases List.mem_cons.mp h with h | h
        · exact Or.inr (by simp [h])
        · rcases ih h with h' | h'
          · exact Or.inl h'
          · exact Or.inr (List.mem_cons_of_mem _ h')

theorem btInsert_append (k : Nat) (v : α) (l : List (Nat × α))
    (h : ∀ p ∈ l, p.1 < k) :
    btInsert k v l = l ++ [(k, v)] := by
  induction l with
  | nil => simp [btInsert]
  | cons q rest ih =>
    have hq : q.1 < k := h q (List.mem_cons_self _ _)
    have h1 : ¬ k < q.1 := by omega
    have h2 : ¬ k = q.1 := by omega
    simp only [btInsert, if_neg h1, if_neg h2, List.cons_append, List.cons.injEq, true_and]
    exact ih (fun p hp => h p (List.mem_cons_of_mem _ hp))

theorem map_fst_btInsert_mem (k : Nat) (v : α) (l : List (Nat × α))
    (hs : (l.map Prod.fst).Pairwise (· < ·))
    (hm : k ∈ l.map Prod.fst) :
    (btInsert k v l).map Prod.fst = l.map Prod.fst := by
  induction l with
  | nil => simp at hm
  | cons q rest ih =>
    rw [List.map_cons] at hm hs
    rcases List.mem_cons.mp hm with hm' | hm'
    · subst hm'
      simp [btInsert]
    · have hq : q.1 < k := (List.pairwise_cons.mp hs).1 k hm'
      have h1 : ¬ k < q.1 := by omega
      have h2 : ¬ k = q.1 := by omega
      simp only [btInsert, if_neg h1, if_neg h2, List.map_cons]
      rw [ih (List.pairwise_cons.mp hs).2 hm']

theorem btRemove_fst (k : Nat) (l : List (Nat × α)) :
    (btRemove k l).1 = btGet k l := by
  induction l with
  | nil => simp [btRemove, btGet]
  | cons p rest ih =>
    by_cases h : k = p.1
    · simp [btRemove, btGet, h]
    · simp [btRemove, btGet, h, ih]

theorem map_fst_btRemove_sublist (k : Nat) (l : List (Nat × α)) :
    ((btRemove k l).2.map Prod.fst).Sublist (l.map Prod.fst) := by
  induction l with
  | nil => simp [btRemove]
  | cons p rest ih =>
    by_cases h : k = p.1
    · subst h
      simp only [btRemove, if_pos rfl, List.map_cons]
      exact List.sublist_cons_self _ _
    · simp only [btRemove, if_neg h, List.map_cons]
      exact List.Sublist.cons₂ _ ih

theorem btGet_btRemove_self (k : Nat) (l : List (Nat × α))
    (hs : (l.map Prod.fst).Pairwise (· < ·)) :
    btGet k ((btRemove k l).2) = none := by
  induction l with
  | nil => simp [btRemove, btGet]
  | cons p rest ih =>
    rw [List.map_cons] at hs
    by_cases h : k = p.1
    · subst h
      simp only [btRemove, if_pos rfl]
      rw [btGet_eq_none_iff]
      intro hm
      have := (List.pairwise_cons.mp hs).1 _ hm
      omega
    · simp only [btRemove, if_neg h]
      simp only [btGet, if_neg h]
      exact ih (List.pairwise_cons.mp hs).2

theorem btGet_btRemove_ne (k' k : Nat) (hk : k' ≠ k) (l : List (Nat × α)) :
    btGet k' ((btRemove k l).2) = btGet k' l := by
  induction l with
  | nil => simp [btRemove]
  | cons p rest ih =>
    by_cases h : k = p.1
    · subst h
      simp only [btRemove, if_pos rfl]
      simp [btGet, hk]
    · by_cases h2 : k' = p.1
      · simp only [btRemove, if_neg h]
        simp [btGet, h2]
      · simp only [btRemove, if_neg h]
        simp only [btGet, if_neg h2]
        exact ih

/-! ### Table lemmas and table well-formedness -/

theorem Table.WF_new : (Table.new : Table α).WF := by
  constructor <;> simp [Table.new, Table.keys]

theorem Table.insert_fst (t : Table α) (v : α) : (t.insert v).1 = t.index := rfl

theorem Table.insert_index (t : Table α) (v : α) :
    (t.insert v).2.index = t.index + 1 := rfl

theorem Table.get_insert_self (t : Table α) (v : α) :
    (t.insert v).2.get t.index = some v :=
  btGet_btInsert_self t.index v t.data

theorem Table.get_insert_ne (t : Table α) (v : α) (k : Nat) (h : k ≠ t.index) :
    (t.insert v).2.get k = t.get k :=
  btGet_btInsert_ne h v t.data

theorem Table.keys_insert (t : Table α) (v : α) (h : t.WF) :
    (t.insert v).2.keys = t.keys ++ [t.index] := by
  show (btInsert t.index v t.data).map Prod.fst = t.data.map Prod.fst ++ [t.index]
  rw [btInsert_append t.index v t.data (fun p hp => h.2 p.1 (List.mem_map_of_mem _ hp))]
  simp

theorem Table.WF_insert (t : Table α) (v : α) (h : t.WF) : (t.insert v).2.WF := by
  constructor
  · rw [Table.keys_insert t v h]
    rw [List.pairwise_append]
    exact ⟨h.1, List.pairwise_singleton _ _, by
      intro a ha b hb
      rw [List.mem_singleton] at hb
      subst hb
      exact h.2 a ha⟩
  · intro k hk
    rw [Table.keys_insert t v h] at hk
    rw [Table.insert_index]
    rcases List.mem_append.mp hk with hk | hk
    · have := h.2 k hk
      omega
    · rw [List.mem_singleton] at hk
      omega

theorem Table.get_set_self (t : Table α) (k : Nat) (v : α) :
    (t.set k v).get k = some v :=
  btGet_btInsert_self k v t.data

theorem Table.get_set_ne (t : Table α) (k v k' : _) (h : k' ≠ k) :
    (t.set k v).get k' = t.get k' :=
  btGet_btInsert_ne h v t.data

theorem Table.set_index (t : Table α) (k : Nat) (v : α) :
    (t.set k v).index = t.index := rfl

theorem Table.keys_set (t : Table α) (k : Nat) (v : α)
    (hs : t.keys.Pairwise (· < ·)) (hm : k ∈ t.keys) :
    (t.set k v).keys = t.keys :=
  map_fst_btInsert_mem k v t.data hs hm

theorem Table.WF_set (t : Table α) (k : Nat) (v : α) (h : t.WF) (hm : k ∈ t.keys) :
    (t.set k v).WF := by
  constructor
  · rw [Table.keys_set t k v h.1 hm]
    exact h.1
  · intro j hj
    rw [Table.keys_set t k v h.1 hm] at hj
    exact h.2 j hj

theorem Table.remove_fst (t : Table α) (k : Nat) : (t.remove k).1 = t.get k :=
  btRemove_fst k t.data

theorem Table.remove_index (t : Table α) (k : Nat) :
    (t.remove k).2.index = t.index := rfl

theorem Table.get_remove_self (t : Table α) (k : Nat)
    (hs : t.keys.Pairwise (· < ·)) :
    (t.remove k).2.get k = none :=
  btGet_btRemove_self k t.data hs

theorem Table.get_remove_ne (t : Table α) (k k' : Nat) (h : k' ≠ k) :
    (t.remove k).2.get k' = t.get k' :=
  btGet_btRemove_ne k' k h t.data

theorem Table.WF_remove (t : Table α) (k : Nat) (h : t.WF) : (t.remove k).2.WF := by
  have hsub : ((t.remove k).2.keys).Sublist t.keys := map_fst_btRemove_sublist k t.data
  exact ⟨h.1.sublist hsub, fun j hj => h.2 j (hsub.mem hj)⟩

theorem Table.get_isSome_iff (t : Table α) (k : Nat) :
    (t.get k).isSome ↔ k ∈ t.keys :=
  btGet_isSome_iff k t.data

theorem Table.get_mem (t : Table α) (k : Nat) (v : α) (h : t.get k = some v) :
    (k, v) ∈ t.data :=
  btGet_mem k v t.data h

theorem Table.mem_keys_of_get (t : Table α) (k : Nat) (v : α)
    (h : t.get k = some v) : k ∈ t.keys :=
  (t.get_isSome_iff k).mp (by rw [h]; rfl)

theorem Table.get_eq_none_iff (t : Table α) (k : Nat) :
    t.get k = none ↔ k ∉ t.keys :=
  btGet_eq_none_iff k t.data

/-! ### Reactor well-formedness -/

theorem filterMap_value_congr (r r' : Reactor T) (deps : List CellId)
    (h : ∀ d ∈ deps, r'.value d = r.value d) :
    deps.filterMap r'.value = deps.filterMap r.value := by
  induction deps with
  | nil => rfl
  | cons d ds ih =>
    rw [List.filterMap_cons, List.filterMap_cons, h d (List.mem_cons_self _ _),
      ih (fun x hx => h x (List.mem_cons_of_mem _ hx))]

/-! ### Structural lemmas about one propagation step -/

section Step

variable {T : Type} [DecidableEq T]

theorem reactStep_none (r : Reactor T) (k : Nat)
    (hg : r.computes.get k = none) : reactStep r k = (r, []) := by
  simp [reactStep, hg]

theorem reactStep_eq (r : Reactor T) (k : Nat) (cell : ComputeCell T)
    (hg : r.computes.get k = some cell) :
    reactStep r k =
      (if cell.func (cell.dependencies.filterMap r.value) = cell.value
       then (r, [])
       else (writeCell r k cell (cell.func (cell.dependencies.filterMap r.value)),
             cell.callbacks.data.map
               (fun p => (k, p.1, cell.func (cell.dependencies.filterMap r.value))))) := by
  simp only [reactStep, hg, writeCell]

theorem reactStep_inputs (r : Reactor T) (k : Nat) :
    (reactStep r k).1.inputs = r.inputs := by
  cases hg : r.computes.get k with
  | none => rw [reactStep_none r k hg]
  | some cell =>
    rw [reactStep_eq r k cell hg]
    by_cases h : cell.func (cell.dependencies.filterMap r.value) = cell.value
    · rw [if_pos h]
    · rw [if_neg h]
      rfl

theorem reactStep_computes_index (r : Reactor T) (k : Nat) :
    (reactStep r k).1.computes.index = r.computes.index := by
  cases hg : r.computes.get k with
  | none => rw [reactStep_none r k hg]
  | some cell =>
    rw [reactStep_eq r k cell hg]
    by_cases h : cell.func (cell.dependencies.filterMap r.value) = cell.value
    · rw [if_pos h]
    · rw [if_neg h]
      rfl

theorem reactStep_get_ne (r : Reactor T) (k j : Nat) (h : j ≠ k) :
    (reactStep r k).1.computes.get j = r.computes.get j := by
  cases hg : r.computes.get k with
  | none => rw [reactStep_none r k hg]
  | some cell =>
    rw [reactStep_eq r k cell hg]
    by_cases hv : cell.func (cell.dependencies.filterMap r.value) = cell.value
    · rw [if_pos hv]
    · rw [if_neg hv]
      exact Table.get_set_ne r.computes k _ j h

theorem reactStep_shape (r : Reactor T) (k j : Nat) :
    ((reactStep r k).1.computes.get j).map cellShape
      = (r.computes.get j).map cellShape := by
  by_cases h : j = k
  · subst h
    cases hg : r.computes.get j with
    | none => rw [reactStep_none r j hg, hg]
    | some cell =>
      rw [reactStep_eq r j cell hg]
      by_cases hv : cell.func (cell.dependencies.filterMap r.value) = cell.value
      · rw [if_pos hv, hg]
      · rw [if_neg hv]
        simp only [writeCell]
        rw [Table.get_set_self]
        rfl
  · rw [reactStep_get_ne r k j h]

theorem reactStep_events (r : Reactor T) (k : Nat) :
    ∀ e ∈ (reactStep r k).2, e.1 = k := by
  intro e he
  cases hg : r.computes.get k with
  | none => rw [reactStep_none r k hg] at he; cases he
  | some cell =>
    rw [reactStep_eq r k cell hg] at he
    by_cases hv : cell.func (cell.dependencies.filterMap r.value) = cell.value
    · rw [if_pos hv] at he; cases he
    · rw [if_neg hv] at he
      rcases List.mem_map.mp he with ⟨p, _, hp⟩
      rw [← hp]

theorem reactStep_value_isSome (r : Reactor T) (k : Nat) (d : CellId) :
    ((reactStep r k).1.value d).isSome = (r.value d).isSome := by
  cases d with
  | Input i =>
    show ((reactStep r k).1.inputs.get i).isSome = (r.inputs.get i).isSome
    rw [reactStep_inputs]
  | Compute i =>
    show (((reactStep r k).1.computes.get i).map ComputeCell.value).isSome
      = ((r.computes.get i).map ComputeCell.value).isSome
    have := reactStep_shape r k i
    cases hg : (reactStep r k).1.computes.get i with
    | none =>
      rw [hg] at this
      cases hg' : r.computes.get i with
      | none => rfl
      | some c => rw [hg'] at this; cases this
    | some c =>
      rw [hg] at this
      cases hg' : r.computes.get i with
      | none => rw [hg'] at this; cases this
      | some c' => rfl

theorem reactStep_deps (r : Reactor T) (k : Nat) :
    ∀ p ∈ (reactStep r k).1.computes.data,
      ∃ q ∈ r.computes.data, q.1 = p.1 ∧
        q.2.dependencies = p.2.dependencies ∧ q.2.callbacks = p.2.callbacks := by
  intro p hp
  cases hg : r.computes.get k with
  | none =>
    rw [reactStep_none r k hg] at hp
    exact ⟨p, hp, rfl, rfl, rfl⟩
  | some cell =>
    rw [reactStep_eq r k cell hg] at hp
    by_cases hv : cell.func (cell.dependencies.filterMap r.value) = cell.value
    · rw [if_pos hv] at hp
      exact ⟨p, hp, rfl, rfl, rfl⟩
    · rw [if_neg hv] at hp
      rcases mem_btInsert p k _ r.computes.data hp with h | h
      · exact ⟨(k, cell), Table.get_mem _ _ _ hg, by rw [h], by rw [h], by rw [h]⟩
      · exact ⟨p, h, rfl, rfl, rfl⟩

theorem depsWF_transfer (r r' : Reactor T)
    (hval : ∀ d : CellId, (r.value d).isSome → (r'.value d).isSome)
    (hdata : ∀ p ∈ r'.computes.data,
      ∃ q ∈ r.computes.data, q.1 = p.1 ∧ q.2.dependencies = p.2.dependencies)
    (h : depsWF r) : depsWF r' := by
  intro p hp d hd
  rcases hdata p hp with ⟨q, hq, hk, hdep⟩
  have := h q hq d (by rw [hdep]; exact hd)
  exact ⟨hval d this.1, fun j hj => hk ▸ this.2 j hj⟩

theorem WF_reactStep (r : Reactor T) (k : Nat) (h : r.WF) : (reactStep r k).1.WF := by
  refine ⟨?_, ?_, ?_, ?_⟩
  · rw [reactStep_inputs]; exact h.1
  · cases hg : r.computes.get k with
    | none => rw [reactStep_none r k hg]; exact h.2.1
    | some cell =>
      rw [reactStep_eq r k cell hg]
      by_cases hv : cell.func (cell.dependencies.filterMap r.value) = cell.value
      · rw [if_pos hv]; exact h.2.1
      · rw [if_neg hv]
        exact Table.WF_set _ _ _ h.2.1 (Table.mem_keys_of_get _ _ _ hg)
  · intro p hp
    rcases reactStep_deps r k p hp with ⟨q, hq, _, _, hcb⟩
    rw [← hcb]
    exact h.2.2.1 q hq
  · exact depsWF_transfer r _ (fun d hd => by rw [reactStep_value_isSome]; exact hd)
      (fun p hp => by
        rcases reactStep_deps r k p hp with ⟨q, hq, hk, hdep, _⟩
        exact ⟨q, hq, hk, hdep⟩)
      h.2.2.2

end Step

theorem eventsFor_append (k : Nat) (a b : List (Event T)) :
    eventsFor k (a ++ b) = eventsFor k a ++ eventsFor k b := by
  simp [eventsFor]

theorem eventsFor_all (k : Nat) (l : List (Event T)) (h : ∀ e ∈ l, e.1 = k) :
    eventsFor k l = l :=
  List.filter_eq_self.mpr (fun e he => by simp [h e he])

theorem eventsFor_none (k : Nat) (l : List (Event T)) (h : ∀ e ∈ l, e.1 ≠ k) :
    eventsFor k l = [] :=
  List.filter_eq_nil_iff.mpr (fun e he => by simp [h e he])

section Loop

variable {T : Type} [DecidableEq T]

theorem reactGo_cons (k : Nat) (ks : List Nat) (r : Reactor T) :
    reactGo (k :: ks) r =
      ((reactGo ks (reactStep r k).1).1,
       (reactStep r k).2 ++ (reactGo ks (reactStep r k).1).2) := rfl

theorem reactGo_inputs (ks : List Nat) :
    ∀ r : Reactor T, (reactGo ks r).1.inputs = r.inputs := by
  induction ks with
  | nil => intro r; rfl
  | cons k ks ih =>
    intro r
    rw [reactGo_cons]
    show (reactGo ks (reactStep r k).1).1.inputs = _
    rw [ih, reactStep_inputs]

theorem reactGo_computes_index (ks : List Nat) :
    ∀ r : Reactor T, (reactGo ks r).1.computes.index = r.computes.index := by
  induction ks with
  | nil => intro r; rfl
  | cons k ks ih =>
    intro r
    rw [reactGo_cons]
    show (reactGo ks (reactStep r k).1).1.computes.index = _
    rw [ih, reactStep_computes_index]

theorem reactGo_shape (ks : List Nat) :
    ∀ (r : Reactor T) (j : Nat),
    ((reactGo ks r).1.computes.get j).map cellShape
      = (r.computes.get j).map cellShape := by
  induction ks with
  | nil => intro r j; rfl
  | cons k ks ih =>
    intro r j
    rw [reactGo_cons]
    show ((reactGo ks (reactStep r k).1).1.computes.get j).map cellShape = _
    rw [ih, reactStep_shape]

theorem reactGo_value_isSome (ks : List Nat) :
    ∀ (r : Reactor T) (d : CellId),
    ((reactGo ks r).1.value d).isSome = (r.value d).isSome := by
  induction ks with
  | nil => intro r d; rfl
  | cons k ks ih =>
    intro r d
    rw [reactGo_cons]
    show ((reactGo ks (reactStep r k).1).1.value d).isSome = _
    rw [ih, reactStep_value_isSome]

theorem reactGo_get_notMem (ks : List Nat) :
    ∀ (r : Reactor T) (k : Nat), k ∉ ks →
    (reactGo ks r).1.computes.get k = r.computes.get k := by
  induction ks with
  | nil => intro r k _; rfl
  | cons j js ih =>
    intro r k hk
    rw [reactGo_cons]
    show (reactGo js (reactStep r j).1).1.computes.get k = _
    rw [ih _ k (fun h => hk (List.mem_cons_of_mem _ h)),
      reactStep_get_ne r j k (fun h => hk (h ▸ List.mem_cons_self _ _))]

theorem reactGo_events_notMem (ks : List Nat) :
    ∀ (r : Reactor T) (k : Nat), k ∉ ks →
    eventsFor k (reactGo ks r).2 = [] := by
  induction ks with
  | nil => intro r k _; rfl
  | cons j js ih =>
    intro r k hk
    rw [reactGo_cons]
    show eventsFor k ((reactStep r j).2 ++ (reactGo js (reactStep r j).1).2) = []
    rw [eventsFor_append, ih _ k (fun h => hk (List.mem_cons_of_mem _ h)),
      eventsFor_none k _ (fun e he => by
        rw [reactStep_events r j e he]
        exact fun h => hk (h ▸ List.mem_cons_self _ _))]
    rfl

theorem WF_reactGo (ks : List Nat) :
    ∀ r : Reactor T, r.WF → (reactGo ks r).1.WF := by
  induction ks with
  | nil => intro r h; exact h
  | cons k ks ih =>
    intro r h
    rw [reactGo_cons]
    exact ih _ (WF_reactStep r k h)

/-- The central induction for cache coherence: walking the remaining
keys `ks` in ascending order re-establishes coherence, provided every
already-visited cell is coherent and sits strictly below the keys still
to visit. -/
theorem reactGo_coherent (ks : List Nat) :
    ∀ r : Reactor T,
    depsWF r →
    (∀ k ∈ ks, (r.computes.get k).isSome) →
    ks.Pairwise (· < ·) →
    (∀ j c, r.computes.get j = some c → j ∉ ks →
      c.value = c.func (c.dependencies.filterMap r.value) ∧ ∀ i ∈ ks, j < i) →
    Coherent (reactGo ks r).1 := by
  induction ks with
  | nil =>
    intro r _ _ _ hdone k c hget
    exact (hdone k c hget (List.not_mem_nil k)).1
  | cons k ks ih =>
    intro r hdeps hsome hsort hdone
    rw [reactGo_cons]
    rcases Option.isSome_iff_exists.mp (hsome k (List.mem_cons_self _ _)) with ⟨cell, hg⟩
    have hcellmem : (k, cell) ∈ r.computes.data := Table.get_mem _ _ _ hg
    have hkks : ∀ i ∈ ks, k < i := (List.pairwise_cons.mp hsort).1
    by_cases hv : cell.func (cell.dependencies.filterMap r.value) = cell.value
    · -- value unchanged: the state is untouched, cell `k` is already coherent
      have hstep : (reactStep r k).1 = r := by
        rw [reactStep_eq r k cell hg, if_pos hv]
      rw [hstep]
      apply ih r hdeps
        (fun i hi => hsome i (List.mem_cons_of_mem _ hi))
        (List.pairwise_cons.mp hsort).2
      intro j c hget hj
      by_cases hjk : j = k
      · subst hjk
        rw [hget] at hg
        cases hg
        exact ⟨hv.symm, fun i hi => hkks i hi⟩
      · have := hdone j c hget (by
          intro hmem
          rcases List.mem_cons.mp hmem with h | h
          · exact hjk h
          · exact hj h)
        exact ⟨this.1, fun i hi => this.2 i (List.mem_cons_of_mem _ hi)⟩
    · -- value changed: overwrite the cache, all other cells untouched
      have hstep : (reactStep r k).1
          = writeCell r k cell (cell.func (cell.dependencies.filterMap r.value)) := by
        rw [reactStep_eq r k cell hg, if_neg hv]
      rw [hstep]
      set v := cell.func (cell.dependencies.filterMap r.value) with hvdef
      set s := writeCell r k cell v with hsdef
      have hs_inputs : s.inputs = r.inputs := rfl
      have hs_get_self : s.computes.get k = some { cell with value := v } :=
        Table.get_set_self _ _ _
      have hs_get_ne : ∀ j, j ≠ k → s.computes.get j = r.computes.get j :=
        fun j hj => Table.get_set_ne _ _ _ _ hj
      have hs_value_ne : ∀ (i : Nat), i ≠ k →
          s.value (CellId.Compute i) = r.value (CellId.Compute i) := by
        intro i hi
        show (s.computes.get i).map _ = (r.computes.get i).map _
        rw [hs_get_ne i hi]
      have hs_value_inp : ∀ i : Nat, s.value (CellId.Input i) = r.value (CellId.Input i) :=
        fun i => rfl
      have hs_deps_val : ∀ (j : Nat) (c : ComputeCell T), (j, c) ∈ r.computes.data →
          (∀ d ∈ c.dependencies, ∀ i, d = CellId.Compute i → i < k) →
          c.dependencies.filterMap s.value = c.dependencies.filterMap r.value := by
        intro j c _ hlt
        apply filterMap_value_congr
        intro d hd
        cases d with
        | Input i => exact hs_value_inp i
        | Compute i =>
          exact hs_value_ne i (Nat.ne_of_lt (hlt (CellId.Compute i) hd i rfl))
      have hs_data : ∀ p ∈ s.computes.data,
          ∃ q ∈ r.computes.data, q.1 = p.1 ∧ q.2.dependencies = p.2.dependencies := by
        intro p hp
        rcases mem_btInsert p k _ r.computes.data hp with h | h
        · exact ⟨(k, cell), hcellmem, by rw [h], by rw [h]⟩
        · exact ⟨p, h, rfl, rfl⟩
      have hs_depsWF : depsWF s := by
        apply depsWF_transfer r s _ hs_data hdeps
        intro d hd
        cases d with
        | Input i => exact hd
        | Compute i =>
          by_cases hik : i = k
          · subst hik
            show ((s.computes.get i).map ComputeCell.value).isSome
            rw [hs_get_self]
            rfl
          · show ((s.computes.get i).map ComputeCell.value).isSome
            rw [hs_get_ne i hik]
            exact hd
      apply ih s hs_depsWF
      · intro i hi
        rw [← Option.isSome_map' (f := ComputeCell.value)]
        show (s.value (CellId.Compute i)).isSome
        by_cases hik : i = k
        · subst hik
          show ((s.computes.get i).map ComputeCell.value).isSome
          rw [hs_get_self]
          rfl
        · rw [hs_value_ne i hik]
          rw [show (r.value (CellId.Compute i)) = (r.computes.get i).map ComputeCell.value from rfl]
          rw [Option.isSome_map']
          exact hsome i (List.mem_cons_of_mem _ hi)
      · exact (List.pairwise_cons.mp hsort).2
      · intro j c hget hj
        by_cases hjk : j = k
        · subst hjk
          rw [hs_get_self] at hget
          cases hget
          refine ⟨?_, fun i hi => hkks i hi⟩
          show v = cell.func (cell.dependencies.filterMap s.value)
          rw [hs_deps_val j cell hcellmem
            (fun d hd i hdi => (hdeps _ hcellmem d hd).2 i hdi)]
        · rw [hs_get_ne j hjk] at hget
          have hjnot : j ∉ k :: ks := by
            intro hmem
            rcases List.mem_cons.mp hmem with h | h
            · exact hjk h
            · exact hj h
          have hold := hdone j c hget hjnot
          have hjk' : j < k := hold.2 k (List.mem_cons_self _ _)
          refine ⟨?_, fun i hi => hold.2 i (List.mem_cons_of_mem _ hi)⟩
          rw [hold.1]
          congr 1
          exact (hs_deps_val j c (Table.get_mem _ _ _ hget)
            (fun d hd i hdi =>
              Nat.lt_trans ((hdeps _ (Table.get_mem _ _ _ hget) d hd).2 i hdi)
                hjk')).symm

end Loop

/-! ### Operation-level lemmas and preservation of well-formedness -/

section Ops

variable {T : Type} [DecidableEq T]

theorem react_coherent (r : Reactor T) (h : r.WF) : Coherent (Reactor.react r).1 := by
  apply reactGo_coherent r.computes.keys r h.2.2.2
  · intro k hk
    exact (Table.get_isSome_iff _ _).mpr hk
  · exact h.2.1.1
  · intro j c hget hj
    exact absurd (Table.mem_keys_of_get _ _ _ hget) hj

theorem set_value_none (r : Reactor T) (id : Nat) (v : T)
    (h : r.inputs.get id = none) : r.set_value id v = (false, r, []) := by
  simp [Reactor.set_value, h]

/-- The reactor with input `id` overwritten by `v`, before propagation. -/
theorem set_value_some (r : Reactor T) (id : Nat) (v w : T)
    (h : r.inputs.get id = some w) :
    r.set_value id v =
      (true, Reactor.react { r with inputs := r.inputs.set id v }) := by
  simp [Reactor.set_value, h]

theorem set_value_true_elim (r : Reactor T) (id : Nat) (v : T) (p)
    (h : r.set_value id v = (true, p)) : ∃ w, r.inputs.get id = some w := by
  cases hg : r.inputs.get id with
  | none =>
    rw [set_value_none r id v hg] at h
    cases h
  | some w => exact ⟨w, rfl⟩

theorem Reactor_WF_new : (Reactor.new : Reactor T).WF := by
  refine ⟨Table.WF_new, Table.WF_new, ?_, ?_⟩
  · intro p hp
    cases hp
  · intro p hp
    cases hp

theorem value_isSome_set_inputs (r : Reactor T) (id : Nat) (v : T) (d : CellId)
    (hd : (r.value d).isSome) :
    (Reactor.value { r with inputs := r.inputs.set id v } d).isSome := by
  cases d with
  | Compute i => exact hd
  | Input i =>
    by_cases hii : i = id
    · subst hii
      show ((r.inputs.set i v).get i).isSome
      rw [Table.get_set_self]
      rfl
    · show ((r.inputs.set id v).get i).isSome
      rw [Table.get_set_ne _ _ _ _ hii]
      exact hd

theorem value_isSome_insert_inputs (r : Reactor T) (v : T) (d : CellId)
    (hd : (r.value d).isSome) :
    (Reactor.value { r with inputs := (r.inputs.insert v).2 } d).isSome := by
  cases d with
  | Compute i => exact hd
  | Input i =>
    by_cases hii : i = r.inputs.index
    · show ((r.inputs.insert v).2.get i).isSome
      rw [hii, Table.get_insert_self]
      rfl
    · show ((r.inputs.insert v).2.get i).isSome
      rw [Table.get_insert_ne _ _ _ hii]
      exact hd

theorem value_isSome_set_computes (r : Reactor T) (id : Nat) (c : ComputeCell T)
    (d : CellId) (hd : (r.value d).isSome) :
    (Reactor.value { r with computes := r.computes.set id c } d).isSome := by
  cases d with
  | Input i => exact hd
  | Compute i =>
    by_cases hii : i = id
    · subst hii
      show (((r.computes.set i c).get i).map ComputeCell.value).isSome
      rw [Table.get_set_self]
      rfl
    · show (((r.computes.set id c).get i).map ComputeCell.value).isSome
      rw [Table.get_set_ne _ _ _ _ hii]
      exact hd

theorem value_isSome_insert_computes (r : Reactor T) (c : ComputeCell T)
    (d : CellId) (hd : (r.value d).isSome) :
    (Reactor.value { r with computes := (r.computes.insert c).2 } d).isSome := by
  cases d with
  | Input i => exact hd
  | Compute i =>
    by_cases hii : i = r.computes.index
    · show (((r.computes.insert c).2.get i).map ComputeCell.value).isSome
      rw [hii, Table.get_insert_self]
      rfl
    · show (((r.computes.insert c).2.get i).map ComputeCell.value).isSome
      rw [Table.get_insert_ne _ _ _ hii]
      exact hd

theorem WF_create_input (r : Reactor T) (v : T) (h : r.WF) :
    (r.create_input v).2.WF := by
  refine ⟨Table.WF_insert _ _ h.1, h.2.1, h.2.2.1, ?_⟩
  exact depsWF_transfer r _ (fun d => value_isSome_insert_inputs r v d)
    (fun p hp => ⟨p, hp, rfl, rfl⟩) h.2.2.2

theorem collectDeps_ok_isSome (r : Reactor T) (deps : List CellId) (vals : List T)
    (h : collectDeps r deps = Except.ok vals) :
    ∀ d ∈ deps, (r.value d).isSome := by
  induction deps generalizing vals with
  | nil => intro d hd; cases hd
  | cons d ds ih =>
    intro x hx
    rw [collectDeps] at h
    cases hg : r.value d with
    | none => rw [hg] at h; cases h
    | some w =>
      rw [hg] at h
      rcases List.mem_cons.mp hx with hx | hx
      · subst hx
        rw [hg]
        rfl
      · cases hc : collectDeps r ds with
        | error c => rw [hc] at h; cases h
        | ok vs => exact ih vs hc x hx

theorem create_compute_ok_eq (r : Reactor T) (deps : List CellId)
    (f : List T → T) (vals : List T)
    (h : collectDeps r deps = Except.ok vals) :
    r.create_compute deps f =
      (Except.ok r.computes.index,
       { r with computes :=
          (r.computes.insert
            { value := f vals, dependencies := deps
              func := f, callbacks := Table.new }).2 }) := by
  simp [Reactor.create_compute, h, Table.insert]

theorem create_compute_error_eq (r : Reactor T) (deps : List CellId)
    (f : List T → T) (c : CellId)
    (h : collectDeps r deps = Except.error c) :
    r.create_compute deps f = (Except.error c, r) := by
  simp [Reactor.create_compute, h]

theorem WF_create_compute (r : Reactor T) (deps : List CellId) (f : List T → T)
    (h : r.WF) : (r.create_compute deps f).2.WF := by
  cases hc : collectDeps r deps with
  | error c =>
    rw [create_compute_error_eq r deps f c hc]
    exact h
  | ok vals =>
    rw [create_compute_ok_eq r deps f vals hc]
    have hsome := collectDeps_ok_isSome r deps vals hc
    refine ⟨h.1, Table.WF_insert _ _ h.2.1, ?_, ?_⟩
    · intro p hp
      rcases mem_btInsert p r.computes.index _ r.computes.data hp with hp' | hp'
      · rw [hp']
        exact Table.WF_new
      · exact h.2.2.1 p hp'
    · intro p hp d hd
      rcases mem_btInsert p r.computes.index _ r.computes.data hp with hp' | hp'
      · subst hp'
        refine ⟨value_isSome_insert_computes r _ d (hsome d hd), ?_⟩
        intro j hj
        subst hj
        have : j ∈ r.computes.keys := by
          rw [← Table.get_isSome_iff]
          have := hsome (CellId.Compute j) hd
          rwa [Reactor.value, Option.isSome_map'] at this
        exact h.2.1.2 j this
      · have := h.2.2.2 p hp' d hd
        exact ⟨value_isSome_insert_computes r _ d this.1, this.2⟩

theorem WF_set_value (r : Reactor T) (id : Nat) (v : T) (h : r.WF) :
    (r.set_value id v).2.1.WF := by
  cases hg : r.inputs.get id with
  | none =>
    rw [set_value_none r id v hg]
    exact h
  | some w =>
    rw [set_value_some r id v w hg]
    apply WF_reactGo
    refine ⟨Table.WF_set _ _ _ h.1 (Table.mem_keys_of_get _ _ _ hg), h.2.1, h.2.2.1, ?_⟩
    exact depsWF_transfer r _ (fun d => value_isSome_set_inputs r id v d)
      (fun p hp => ⟨p, hp, rfl, rfl⟩) h.2.2.2

theorem add_callback_none (r : Reactor T) (id : Nat)
    (h : r.computes.get id = none) : r.add_callback id = (none, r) := by
  simp [Reactor.add_callback, h]

theorem add_callback_some (r : Reactor T) (id : Nat) (cell : ComputeCell T)
    (h : r.computes.get id = some cell) :
    r.add_callback id =
      (some cell.callbacks.index,
       setCallbacks r id cell (cell.callbacks.insert ()).2) := by
  simp [Reactor.add_callback, h, Table.insert, setCallbacks]

theorem WF_add_callback (r : Reactor T) (id : Nat) (h : r.WF) :
    (r.add_callback id).2.WF := by
  cases hg : r.computes.get id with
  | none =>
    rw [add_callback_none r id hg]
    exact h
  | some cell =>
    rw [add_callback_some r id cell hg]
    have hmem : (id, cell) ∈ r.computes.data := Table.get_mem _ _ _ hg
    refine ⟨h.1, Table.WF_set _ _ _ h.2.1 (Table.mem_keys_of_get _ _ _ hg), ?_, ?_⟩
    · intro p hp
      rcases mem_btInsert p id _ r.computes.data hp with hp' | hp'
      · rw [hp']
        exact Table.WF_insert cell.callbacks () (h.2.2.1 _ hmem)
      · exact h.2.2.1 p hp'
    · refine depsWF_transfer r _ (fun d => value_isSome_set_computes r id _ d) ?_ h.2.2.2
      intro p hp
      rcases mem_btInsert p id _ r.computes.data hp with hp' | hp'
      · exact ⟨(id, cell), hmem, by rw [hp'], by rw [hp']⟩
      · exact ⟨p, hp', rfl, rfl⟩

theorem remove_callback_nocell (r : Reactor T) (id cb : Nat)
    (h : r.computes.get id = none) :
    r.remove_callback id cb = (Except.error RemoveCallbackError.NonexistentCell, r) := by
  simp [Reactor.remove_callback, h]

theorem remove_callback_nocb (r : Reactor T) (id cb : Nat) (cell : ComputeCell T)
    (h : r.computes.get id = some cell) (hcb : cell.callbacks.get cb = none) :
    r.remove_callback id cb
      = (Except.error RemoveCallbackError.NonexistentCallback, r) := by
  have : (cell.callbacks.remove cb).1 = none := by
    rw [Table.remove_fst, hcb]
  simp [Reactor.remove_callback, h, Table.remove] at this ⊢
  rw [this]

theorem remove_callback_ok (r : Reactor T) (id cb : Nat) (cell : ComputeCell T)
    (u : Unit) (h : r.computes.get id = some cell)
    (hcb : cell.callbacks.get cb = some u) :
    r.remove_callback id cb =
      (Except.ok (), setCallbacks r id cell (cell.callbacks.remove cb).2) := by
  have hr : (cell.callbacks.remove cb).1 = some u := by
    rw [Table.remove_fst, hcb]
  simp [Reactor.remove_callback, h, Table.remove, setCallbacks] at hr ⊢
  rw [hr]

theorem WF_remove_callback (r : Reactor T) (id cb : Nat) (h : r.WF) :
    (r.remove_callback id cb).2.WF := by
  cases hg : r.computes.get id with
  | none =>
    rw [remove_callback_nocell r id cb hg]
    exact h
  | some cell =>
    cases hcb : cell.callbacks.get cb with
    | none =>
      rw [remove_callback_nocb r id cb cell hg hcb]
      exact h
    | some u =>
      rw [remove_callback_ok r id cb cell u hg hcb]
      have hmem : (id, cell) ∈ r.computes.data := Table.get_mem _ _ _ hg
      refine ⟨h.1, Table.WF_set _ _ _ h.2.1 (Table.mem_keys_of_get _ _ _ hg), ?_, ?_⟩
      · intro p hp
        rcases mem_btInsert p id _ r.computes.data hp with hp' | hp'
        · rw [hp']
          exact Table.WF_remove cell.callbacks cb (h.2.2.1 _ hmem)
        · exact h.2.2.1 p hp'
      · refine depsWF_transfer r _ (fun d => value_isSome_set_computes r id _ d) ?_ h.2.2.2
        intro p hp
        rcases mem_btInsert p id _ r.computes.data hp with hp' | hp'
        · exact ⟨(id, cell), hmem, by rw [hp'], by rw [hp']⟩
        · exact ⟨p, hp', rfl, rfl⟩

/-- Per-cell characterization of one propagation pass: the cell keeps
its shape; if its value is unchanged no event for it is fired, and if it
changed, exactly its registered callbacks fire once each, in table
order, with the new value. -/
theorem reactGo_cell_events (ks : List Nat) :
    ∀ (r : Reactor T) (k : Nat) (cOld : ComputeCell T),
    ks.Pairwise (· < ·) → k ∈ ks → r.computes.get k = some cOld →
    ∃ cNew, (reactGo ks r).1.computes.get k = some cNew ∧
      cNew.dependencies = cOld.dependencies ∧ cNew.func = cOld.func ∧
      cNew.callbacks = cOld.callbacks ∧
      ((cNew.value = cOld.value ∧ eventsFor k (reactGo ks r).2 = []) ∨
       (cNew.value ≠ cOld.value ∧
        eventsFor k (reactGo ks r).2
          = cOld.callbacks.data.map (fun p => (k, p.1, cNew.value)))) := by
  induction ks with
  | nil =>
    intro r k cOld _ hk _
    cases hk
  | cons j js ih =>
    intro r k cOld hsort hk hg
    have hjs : ∀ i ∈ js, j < i := (List.pairwise_cons.mp hsort).1
    rw [reactGo_cons]
    rcases List.mem_cons.mp hk with hkj | hkj
    · -- the visited key is our cell
      subst hkj
      have hknot : k ∉ js := fun hmem => absurd (hjs k hmem) (lt_irrefl k)
      by_cases hv : cOld.func (cOld.dependencies.filterMap r.value) = cOld.value
      · have hstep : reactStep r k = (r, []) := by
          rw [reactStep_eq r k cOld hg, if_pos hv]
        rw [hstep]
        refine ⟨cOld, ?_, rfl, rfl, rfl, Or.inl ⟨rfl, ?_⟩⟩
        · rw [reactGo_get_notMem js r k hknot]
          exact hg
        · show eventsFor k ([] ++ (reactGo js r).2) = []
          rw [List.nil_append]
          exact reactGo_events_notMem js r k hknot
      · have hstep : reactStep r k =
            (writeCell r k cOld (cOld.func (cOld.dependencies.filterMap r.value)),
             cOld.callbacks.data.map
               (fun p => (k, p.1, cOld.func (cOld.dependencies.filterMap r.value)))) := by
          rw [reactStep_eq r k cOld hg, if_neg hv]
        rw [hstep]
        refine ⟨{ cOld with value := cOld.func (cOld.dependencies.filterMap r.value) },
          ?_, rfl, rfl, rfl, Or.inr ⟨hv, ?_⟩⟩
        · rw [reactGo_get_notMem js _ k hknot]
          exact Table.get_set_self _ _ _
        · rw [eventsFor_append, reactGo_events_notMem js _ k hknot, List.append_nil]
          exact eventsFor_all k _ (fun e he => by
            rcases List.mem_map.mp he with ⟨p, _, hp⟩
            rw [← hp])
    · -- the visited key is a different cell
      have hjk : j ≠ k := Nat.ne_of_lt (hjs k hkj)
      have hg1 : (reactStep r j).1.computes.get k = some cOld := by
        rw [reactStep_get_ne r j k (Ne.symm hjk)]
        exact hg
      rcases ih (reactStep r j).1 k cOld (List.pairwise_cons.mp hsort).2 hkj hg1
        with ⟨cNew, hNew, hdep, hfun, hcb, hcase⟩
      refine ⟨cNew, hNew, hdep, hfun, hcb, ?_⟩
      have hstepev : eventsFor k (reactStep r j).2 = [] :=
        eventsFor_none k _ (fun e he => by
          rw [reactStep_events r j e he]
          exact hjk)
      rcases hcase with ⟨h1, h2⟩ | ⟨h1, h2⟩
      · exact Or.inl ⟨h1, by rw [eventsFor_append, hstepev, h2]; rfl⟩
      · exact Or.inr ⟨h1, by rw [eventsFor_append, hstepev, h2]; rfl⟩

theorem cbAbsent_shape (r r' : Reactor T) (cell cb : Nat)
    (hsh : (r'.computes.get cell).map cellShape = (r.computes.get cell).map cellShape)
    (h : cbAbsent r cell cb) : cbAbsent r' cell cb := by
  intro c' hg'
  rw [hg'] at hsh
  cases hg : r.computes.get cell with
  | none =>
    rw [hg] at hsh
    cases hsh
  | some c =>
    rw [hg] at hsh
    have hshape : cellShape c' = cellShape c := Option.some.inj hsh
    have hcb : c'.callbacks = c.callbacks := congrArg (fun q => q.2.2) hshape
    rw [hcb]
    exact h c hg

theorem reactStep_no_cb_event (r : Reactor T) (j cell cb : Nat)
    (h : cbAbsent r cell cb) :
    ∀ e ∈ (reactStep r j).2, ¬(e.1 = cell ∧ e.2.1 = cb) := by
  intro e he hc
  cases hg : r.computes.get j with
  | none =>
    rw [reactStep_none r j hg] at he
    cases he
  | some c =>
    rw [reactStep_eq r j c hg] at he
    by_cases hv : c.func (c.dependencies.filterMap r.value) = c.value
    · rw [if_pos hv] at he
      cases he
    · rw [if_neg hv] at he
      rcases List.mem_map.mp he with ⟨p, hp, hpe⟩
      have hj : j = cell := by rw [← hc.1, ← hpe]
      have hpcb : p.1 = cb := by rw [← hc.2, ← hpe]
      subst hj
      have hnone := h c hg
      rw [Table.get_eq_none_iff] at hnone
      exact hnone (hpcb ▸ List.mem_map_of_mem Prod.fst hp)

theorem reactGo_no_cb_event (ks : List Nat) :
    ∀ (r : Reactor T) (cell cb : Nat), cbAbsent r cell cb →
      (∀ e ∈ (reactGo ks r).2, ¬(e.1 = cell ∧ e.2.1 = cb)) ∧
        cbAbsent (reactGo ks r).1 cell cb := by
  induction ks with
  | nil =>
    intro r cell cb h
    exact ⟨fun e he => absurd he (List.not_mem_nil e), h⟩
  | cons j js ih =>
    intro r cell cb h
    have h1 : cbAbsent (reactStep r j).1 cell cb :=
      cbAbsent_shape _ _ cell cb (reactStep_shape r j cell) h
    rcases ih (reactStep r j).1 cell cb h1 with ⟨hev, habs⟩
    rw [reactGo_cons]
    refine ⟨?_, habs⟩
    intro e he
    rcases List.mem_append.mp he with he | he
    · exact reactStep_no_cb_event r j cell cb h e he
    · exact hev e he

theorem set_value_no_cb_event (r : Reactor T) (id : Nat) (v : T) (cell cb : Nat)
    (h : cbAbsent r cell cb) :
    (∀ e ∈ (r.set_value id v).2.2, ¬(e.1 = cell ∧ e.2.1 = cb)) ∧
      cbAbsent (r.set_value id v).2.1 cell cb := by
  cases hg : r.inputs.get id with
  | none =>
    rw [set_value_none r id v hg]
    exact ⟨fun e he => absurd he (List.not_mem_nil e), h⟩
  | some w =>
    rw [set_value_some r id v w hg]
    exact reactGo_no_cb_event _ _ cell cb h

theorem setValueTrace_no_cb_event (ops : List (Nat × T)) :
    ∀ (r : Reactor T) (cell cb : Nat), cbAbsent r cell cb →
      ∀ e ∈ setValueTrace r ops, ¬(e.1 = cell ∧ e.2.1 = cb) := by
  induction ops with
  | nil =>
    intro r cell cb _ e he
    cases he
  | cons op ops ih =>
    intro r cell cb h e he
    rw [setValueTrace] at he
    rcases List.mem_append.mp he with he | he
    · exact (set_value_no_cb_event r op.1 op.2 cell cb h).1 e he
    · exact ih _ cell cb (set_value_no_cb_event r op.1 op.2 cell cb h).2 e he

theorem Reachable.wf (r : Reactor T) (h : Reachable r) : r.WF := by
  induction h with
  | new => exact Reactor_WF_new
  | create_input r v _ ih => exact WF_create_input r v ih
  | create_compute r deps f _ ih => exact WF_create_compute r deps f ih
  | set_value r id v _ ih => exact WF_set_value r id v ih
  | add_callback r id _ ih => exact WF_add_callback r id ih
  | remove_callback r id cb _ ih => exact WF_remove_callback r id cb ih

theorem collectDeps_error_of_missing (r : Reactor T) (deps : List CellId)
    (h : ∃ d ∈ deps, r.value d = none) :
    ∃ c ∈ deps, collectDeps r deps = Except.error c ∧ r.value c = none := by
  induction deps with
  | nil =>
    rcases h with ⟨d, hd, _⟩
    cases hd
  | cons d ds ih =>
    cases hg : r.value d with
    | none => exact ⟨d, List.mem_cons_self _ _, by rw [collectDeps, hg], hg⟩
    | some w =>
      have htail : ∃ x ∈ ds, r.value x = none := by
        rcases h with ⟨x, hx, hxn⟩
        rcases List.mem_cons.mp hx with hx | hx
        · subst hx
          rw [hg] at hxn
          cases hxn
        · exact ⟨x, hx, hxn⟩
      rcases ih htail with ⟨c, hmem, hc, hcv⟩
      refine ⟨c, List.mem_cons_of_mem _ hmem, ?_, hcv⟩
      rw [collectDeps, hg, hc]
      rfl

theorem collectDeps_error_find (r : Reactor T) (deps : List CellId) (c : CellId) :
    deps.find? (fun d => (r.value d).isNone) = some c →
    collectDeps r deps = Except.error c := by
  induction deps with
  | nil =>
    intro h
    cases h
  | cons d ds ih =>
    intro h
    cases hg : r.value d with
    | none =>
      rw [List.find?_cons_of_pos _ (by rw [hg]; rfl)] at h
      cases h
      rw [collectDeps, hg]
    | some w =>
      rw [List.find?_cons_of_neg _ (by rw [hg]; simp)] at h
      rw [collectDeps, hg, ih h]
      rfl

theorem collectDeps_ok_of_isSome (r : Reactor T) (deps : List CellId)
    (h : ∀ d ∈ deps, (r.value d).isSome) :
    ∃ vals, collectDeps r deps = Except.ok vals
      ∧ deps.map r.value = vals.map some := by
  induction deps with
  | nil => exact ⟨[], rfl, rfl⟩
  | cons d ds ih =>
    rcases Option.isSome_iff_exists.mp (h d (List.mem_cons_self _ _)) with ⟨w, hw⟩
    rcases ih (fun x hx => h x (List.mem_cons_of_mem _ hx)) with ⟨vals, hv, hmap⟩
    refine ⟨w :: vals, ?_, ?_⟩
    · rw [collectDeps, hw, hv]
      rfl
    · rw [List.map_cons, hw, hmap]
      rfl

theorem runOps_assigned (ops : List (TableOp α)) :
    ∀ t : Table α,
      (runOps t ops).2 = List.range' t.index (ops.countP TableOp.isIns) := by
  induction ops with
  | nil =>
    intro t
    simp [runOps]
  | cons op ops ih =>
    intro t
    cases op with
    | ins v =>
      rw [runOps, List.countP_cons]
      simp only [TableOp.isIns, if_true]
      rw [List.range'_succ, ih]
      rfl
    | del k =>
      rw [runOps, List.countP_cons]
      simp only [TableOp.isIns]
      rw [ih]
      rfl

theorem react_def (r : Reactor T) : Reactor.react r = reactGo r.computes.keys r := rfl

theorem setCallbacks_get_self (r : Reactor T) (id : Nat) (cell : ComputeCell T)
    (t : Table Unit) :
    (setCallbacks r id cell t).computes.get id = some { cell with callbacks := t } :=
  Table.get_set_self _ _ _

theorem setCallbacks_get_ne (r : Reactor T) (id : Nat) (cell : ComputeCell T)
    (t : Table Unit) (k : Nat) (h : k ≠ id) :
    (setCallbacks r id cell t).computes.get k = r.computes.get k :=
  Table.get_set_ne _ _ _ _ h

theorem setCallbacks_value (r : Reactor T) (id : Nat) (cell : ComputeCell T)
    (t : Table Unit) (hg : r.computes.get id = some cell) :
    ∀ ref, (setCallbacks r id cell t).value ref = r.value ref := by
  intro ref
  cases ref with
  | Input i => rfl
  | Compute i =>
    by_cases hii : i = id
    · subst hii
      show ((setCallbacks r i cell t).computes.get i).map _ = (r.computes.get i).map _
      rw [setCallbacks_get_self, hg]
      rfl
    · show ((setCallbacks r id cell t).computes.get i).map _ = (r.computes.get i).map _
      rw [setCallbacks_get_ne r id cell t i hii]

/-! ### The claims -/

/-- C1: for every reachable reactor state, immediately after a
successful `set_value` call, every compute cell's cached value equals
its function applied to the current values of its dependencies (which
all resolve), for arbitrarily deep dependency chains. -/
theorem C1_cache_coherence (r r' : Reactor T) (id : Nat) (v : T)
    (evs : List (Event T)) (hreach : Reachable r)
    (hsv : r.set_value id v = (true, r', evs)) :
    ∀ k c, r'.computes.get k = some c →
      (∀ d ∈ c.dependencies, (r'.value d).isSome) ∧
      c.value = c.func (c.dependencies.filterMap r'.value) := by
  have hwf := Reachable.wf r hreach
  rcases set_value_true_elim r id v _ hsv with ⟨w, hg⟩
  rw [set_value_some r id v w hg] at hsv
  have hpair := congrArg Prod.snd hsv
  have hr' : (Reactor.react { r with inputs := r.inputs.set id v }).1 = r' :=
    congrArg Prod.fst hpair
  have hwf1 : Reactor.WF { r with inputs := r.inputs.set id v } := by
    refine ⟨Table.WF_set _ _ _ hwf.1 (Table.mem_keys_of_get _ _ _ hg),
      hwf.2.1, hwf.2.2.1, ?_⟩
    exact depsWF_transfer r _ (fun d => value_isSome_set_inputs r id v d)
      (fun p hp => ⟨p, hp, rfl, rfl⟩) hwf.2.2.2
  have hcoh : Coherent (Reactor.react { r with inputs := r.inputs.set id v }).1 :=
    react_coherent _ hwf1
  rw [hr'] at hcoh
  intro k c hget
  refine ⟨?_, hcoh k c hget⟩
  intro d hd
  -- transfer resolvability from the pre-propagation state
  have hsh := reactGo_shape
    (Reactor.computes { r with inputs := r.inputs.set id v }).keys
    { r with inputs := r.inputs.set id v } k
  rw [← react_def, hr', hget] at hsh
  cases hg0 : Reactor.computes { r with inputs := r.inputs.set id v } |>.get k with
  | none =>
    rw [hg0] at hsh
    cases hsh
  | some c0 =>
    rw [hg0] at hsh
    have hshape : cellShape c = cellShape c0 := Option.some.inj hsh
    have hdeps0 : c0.dependencies = c.dependencies :=
      (congrArg (fun q => q.1) hshape).symm
    have hres := (hwf1.2.2.2 (k, c0) (Table.get_mem _ _ _ hg0) d
      (by rw [hdeps0]; exact hd)).1
    have hval := reactGo_value_isSome
      (Reactor.computes { r with inputs := r.inputs.set id v }).keys
      { r with inputs := r.inputs.set id v } d
    rw [← react_def, hr'] at hval
    rw [hval]
    exact hres

/-- C2: per successful `set_value` call and compute cell, the cell's
callbacks fire exactly once each (in ascending callback-identifier
order, with the final post-propagation value) when the cell's value
changed, and not at all when it is unchanged. -/
theorem C2_callback_semantics (r r' : Reactor T) (id : Nat) (v : T)
    (evs : List (Event T)) (hreach : Reachable r)
    (hsv : r.set_value id v = (true, r', evs))
    (k : Nat) (cOld cNew : ComputeCell T)
    (hOld : r.computes.get k = some cOld)
    (hNew : r'.computes.get k = some cNew) :
    cNew.callbacks = cOld.callbacks ∧
    cOld.callbacks.keys.Pairwise (· < ·) ∧
    (cNew.value ≠ cOld.value →
      eventsFor k evs = cOld.callbacks.keys.map (fun i => (k, i, cNew.value))) ∧
    (cNew.value = cOld.value → eventsFor k evs = []) := by
  have hwf := Reachable.wf r hreach
  rcases set_value_true_elim r id v _ hsv with ⟨w, hg⟩
  rw [set_value_some r id v w hg] at hsv
  have hpair := congrArg Prod.snd hsv
  have hr' : (Reactor.react { r with inputs := r.inputs.set id v }).1 = r' :=
    congrArg Prod.fst hpair
  have hevs : (Reactor.react { r with inputs := r.inputs.set id v }).2 = evs :=
    congrArg Prod.snd hpair
  have hks : k ∈ (Reactor.computes { r with inputs := r.inputs.set id v }).keys :=
    Table.mem_keys_of_get _ _ _ hOld
  rcases reactGo_cell_events
      (Reactor.computes { r with inputs := r.inputs.set id v }).keys
      { r with inputs := r.inputs.set id v } k cOld hwf.2.1.1 hks hOld
    with ⟨cNew', hNew', hdep, hfun, hcb, hcase⟩
  rw [← react_def, hr'] at hNew'
  rw [hNew'] at hNew
  have hcc : cNew' = cNew := Option.some.inj hNew
  subst hcc
  refine ⟨hcb, (hwf.2.2.1 (k, cOld) (Table.get_mem _ _ _ hOld)).1, ?_, ?_⟩
  · intro hne
    rcases hcase with ⟨heq, _⟩ | ⟨_, hev⟩
    · exact absurd heq hne
    · rw [← react_def, hevs] at hev
      rw [hev, Table.keys, List.map_map]
      rfl
  · intro heq
    rcases hcase with ⟨_, hev⟩ | ⟨hne, _⟩
    · rw [← react_def, hevs] at hev
      exact hev
    · exact absurd heq hne

/-- C3: `value` on an unknown identifier of either kind returns
nothing, and `set_value` on an unknown input identifier returns `false`
and leaves the reactor unchanged, firing no callback. -/
theorem C3_unknown_identifier (r : Reactor T) (id : Nat) (v : T) :
    (r.inputs.get id = none → r.value (CellId.Input id) = none) ∧
    (r.computes.get id = none → r.value (CellId.Compute id) = none) ∧
    (r.inputs.get id = none → r.set_value id v = (false, r, [])) := by
  refine ⟨?_, ?_, ?_⟩
  · intro h
    show r.inputs.get id = none
    exact h
  · intro h
    show (r.computes.get id).map ComputeCell.value = none
    rw [h]
    rfl
  · intro h
    exact set_value_none r id v h

/-- C4: after `create_input(v)`, `value` of the returned identifier is
`v`; after a successful `set_value(id, v2)`, `value(id)` is `v2`. -/
theorem C4_input_value (r r' : Reactor T) (v v2 : T) (id : Nat)
    (evs : List (Event T)) :
    ((r.create_input v).2.value (CellId.Input (r.create_input v).1) = some v) ∧
    (r.set_value id v2 = (true, r', evs) → r'.value (CellId.Input id) = some v2) := by
  constructor
  · show ((r.inputs.insert v).2.get r.inputs.index) = some v
    exact Table.get_insert_self _ _
  · intro hsv
    rcases set_value_true_elim r id v2 _ hsv with ⟨w, hg⟩
    rw [set_value_some r id v2 w hg] at hsv
    have hr' : (Reactor.react { r with inputs := r.inputs.set id v2 }).1 = r' :=
      congrArg Prod.fst (congrArg Prod.snd hsv)
    show r'.inputs.get id = some v2
    rw [← hr', react_def, reactGo_inputs]
    show (r.inputs.set id v2).get id = some v2
    exact Table.get_set_self _ _ _

/-- C5: `create_compute` with at least one unresolvable dependency
fails with some missing dependency's reference and leaves the reactor
(and hence its identifier counters) untouched. -/
theorem C5_missing_dependency (r : Reactor T) (deps : List CellId)
    (f : List T → T) (h : ∃ d ∈ deps, r.value d = none) :
    ∃ c ∈ deps, r.create_compute deps f = (Except.error c, r)
      ∧ r.value c = none := by
  rcases collectDeps_error_of_missing r deps h with ⟨c, hmem, hc, hcv⟩
  exact ⟨c, hmem, create_compute_error_eq r deps f c hc, hcv⟩

/-- C6: `create_compute` with fully resolvable dependencies succeeds,
returning the next compute identifier; the new cell's cached value is
the function applied to the dependency values in the given order and
its callback table is empty. -/
theorem C6_create_compute_success (r : Reactor T) (deps : List CellId)
    (f : List T → T) (h : ∀ d ∈ deps, (r.value d).isSome) :
    ∃ vals, deps.map r.value = vals.map some ∧
      (r.create_compute deps f).1 = Except.ok r.computes.index ∧
      (r.create_compute deps f).2.computes.get r.computes.index
        = some { value := f vals, dependencies := deps
                 func := f, callbacks := Table.new } := by
  rcases collectDeps_ok_of_isSome r deps h with ⟨vals, hok, hmap⟩
  refine ⟨vals, hmap, ?_, ?_⟩
  · rw [create_compute_ok_eq r deps f vals hok]
  · rw [create_compute_ok_eq r deps f vals hok]
    exact Table.get_insert_self _ _

/-- C7: `remove_callback` distinguishes a missing cell from a missing
callback (a second removal of the same identifier fails with
`NonexistentCallback`), and a removed callback is never fired by any
later sequence of `set_value` calls. -/
theorem C7_remove_callback (r : Reactor T) (cell cb : Nat)
    (hreach : Reachable r) :
    (r.computes.get cell = none →
      r.remove_callback cell cb
        = (Except.error RemoveCallbackError.NonexistentCell, r)) ∧
    (∀ c : ComputeCell T, r.computes.get cell = some c →
      c.callbacks.get cb = none →
      r.remove_callback cell cb
        = (Except.error RemoveCallbackError.NonexistentCallback, r)) ∧
    (∀ (c : ComputeCell T) (u : Unit), r.computes.get cell = some c →
      c.callbacks.get cb = some u →
      (r.remove_callback cell cb).1 = Except.ok () ∧
      ((r.remove_callback cell cb).2.remove_callback cell cb).1
        = Except.error RemoveCallbackError.NonexistentCallback ∧
      ∀ ops : List (Nat × T), ∀ e ∈ setValueTrace (r.remove_callback cell cb).2 ops,
        ¬(e.1 = cell ∧ e.2.1 = cb)) := by
  have hwf := Reachable.wf r hreach
  refine ⟨remove_callback_nocell r cell cb, remove_callback_nocb r cell cb, ?_⟩
  intro c u hgc hcb
  rw [remove_callback_ok r cell cb c u hgc hcb]
  have hsorted : c.callbacks.keys.Pairwise (· < ·) :=
    (hwf.2.2.1 (cell, c) (Table.get_mem _ _ _ hgc)).1
  have hgone : (setCallbacks r cell c (c.callbacks.remove cb).2).computes.get cell
      = some { c with callbacks := (c.callbacks.remove cb).2 } :=
    setCallbacks_get_self r cell c _
  have habsent : cbAbsent (setCallbacks r cell c (c.callbacks.remove cb).2) cell cb := by
    intro c'' hgc''
    rw [hgone] at hgc''
    cases Option.some.inj hgc''
    exact Table.get_remove_self c.callbacks cb hsorted
  refine ⟨rfl, ?_, ?_⟩
  · rw [remove_callback_nocb _ cell cb _ hgone
      (Table.get_remove_self c.callbacks cb hsorted)]
  · intro ops e he
    exact setValueTrace_no_cb_event ops _ cell cb habsent e he

/-- C8: within each identifier kind, a table built from any sequence of
insertions and removals assigns identifiers 0, 1, 2, … to successive
insertions, in strictly increasing order, never reusing one even after
a removal. -/
theorem C8_identifier_allocation (α : Type) (ops : List (TableOp α)) :
    (runOps (Table.new : Table α) ops).2
      = List.range (ops.countP TableOp.isIns) := by
  rw [runOps_assigned ops Table.new, List.range_eq_range']
  rfl

/-- C9: when several dependencies are unresolvable, `create_compute`
reports the first missing one in dependency-list order. -/
theorem C9_first_missing_dependency (r : Reactor T) (deps : List CellId)
    (f : List T → T) (c : CellId)
    (h : deps.find? (fun d => (r.value d).isNone) = some c) :
    (r.create_compute deps f).1 = Except.error c := by
  rw [create_compute_error_eq r deps f c (collectDeps_error_find r deps c h)]

/-- C10: `add_callback` and `remove_callback` never change any cell's
value, and leave every other compute cell entirely unchanged, whether
they succeed or fail. -/
theorem C10_callback_ops_frame (r : Reactor T) (id cb : Nat) :
    (∀ ref, (r.add_callback id).2.value ref = r.value ref) ∧
    (∀ k, k ≠ id → (r.add_callback id).2.computes.get k = r.computes.get k) ∧
    (∀ ref, (r.remove_callback id cb).2.value ref = r.value ref) ∧
    (∀ k, k ≠ id → (r.remove_callback id cb).2.computes.get k = r.computes.get k) := by
  refine ⟨?_, ?_, ?_, ?_⟩
  · intro ref
    cases hg : r.computes.get id with
    | none => rw [add_callback_none r id hg]
    | some cell =>
      rw [add_callback_some r id cell hg]
      exact setCallbacks_value r id cell _ hg ref
  · intro k hk
    cases hg : r.computes.get id with
    | none => rw [add_callback_none r id hg]
    | some cell =>
      rw [add_callback_some r id cell hg]
      exact setCallbacks_get_ne r id cell _ k hk
  · intro ref
    cases hg : r.computes.get id with
    | none => rw [remove_callback_nocell r id cb hg]
    | some cell =>
      cases hcb : cell.callbacks.get cb with
      | none => rw [remove_callback_nocb r id cb cell hg hcb]
      | some u =>
        rw [remove_callback_ok r id cb cell u hg hcb]
        exact setCallbacks_value r id cell _ hg ref
  · intro k hk
    cases hg : r.computes.get id with
    | none => rw [remove_callback_nocell r id cb hg]
    | some cell =>
      cases hcb : cell.callbacks.get cb with
      | none => rw [remove_callback_nocb r id cb cell hg hcb]
      | some u =>
        rw [remove_callback_ok r id cb cell u hg hcb]
        exact setCallbacks_get_ne r id cell _ k hk

/-! ### Witnesses -/

theorem wReachable4 : Reachable wReactor4 :=
  Reachable.create_compute _ _ _ (Reachable.add_callback _ _
    (Reachable.create_compute _ _ _ (Reachable.create_input _ _ Reachable.new)))

theorem C1_cache_coherence_witness :
    (∀ d ∈ wCell1.dependencies,
      (((wReactor4.set_value 0 5).2.1).value d).isSome) ∧
    wCell1.value = wCell1.func
      (wCell1.dependencies.filterMap ((wReactor4.set_value 0 5).2.1).value) :=
  C1_cache_coherence wReactor4 (wReactor4.set_value 0 5).2.1 0 5
    (wReactor4.set_value 0 5).2.2 wReachable4 rfl 1 wCell1 rfl

theorem C2_callback_semantics_witness :
    wCellNew0.callbacks = wCellOld0.callbacks ∧
    wCellOld0.callbacks.keys.Pairwise (· < ·) ∧
    (wCellNew0.value ≠ wCellOld0.value →
      eventsFor 0 (wReactor4.set_value 0 5).2.2
        = wCellOld0.callbacks.keys.map (fun i => (0, i, wCellNew0.value))) ∧
    (wCellNew0.value = wCellOld0.value →
      eventsFor 0 (wReactor4.set_value 0 5).2.2 = []) :=
  C2_callback_semantics wReactor4 (wReactor4.set_value 0 5).2.1 0 5
    (wReactor4.set_value 0 5).2.2 wReachable4 rfl 0 wCellOld0 wCellNew0 rfl rfl

theorem C3_unknown_identifier_witness :
    wReactor1.value (CellId.Input 5) = none ∧
    wReactor1.value (CellId.Compute 5) = none ∧
    wReactor1.set_value 5 9 = (false, wReactor1, []) :=
  ⟨(C3_unknown_identifier wReactor1 5 9).1 rfl,
   (C3_unknown_identifier wReactor1 5 9).2.1 rfl,
   (C3_unknown_identifier wReactor1 5 9).2.2 rfl⟩

theorem C4_input_value_witness :
    ((wReactor1.create_input 3).2.value (CellId.Input (wReactor1.create_input 3).1)
      = some 3) ∧
    ((wReactor1.set_value 0 7).2.1.value (CellId.Input 0) = some 7) :=
  ⟨(C4_input_value wReactor1 wReactor1 3 7 0 []).1,
   (C4_input_value wReactor1 (wReactor1.set_value 0 7).2.1 3 7 0
      (wReactor1.set_value 0 7).2.2).2 rfl⟩

theorem C5_missing_dependency_witness :
    ∃ c ∈ [CellId.Input 3],
      wReactor1.create_compute [CellId.Input 3] (fun xs => xs.headD 0)
        = (Except.error c, wReactor1) ∧ wReactor1.value c = none :=
  C5_missing_dependency wReactor1 [CellId.Input 3] (fun xs => xs.headD 0)
    ⟨CellId.Input 3, List.mem_singleton_self _, rfl⟩

theorem C6_create_compute_success_witness :
    ∃ vals : List Nat, [CellId.Input 0].map wReactor1.value = vals.map some ∧
      (wReactor1.create_compute [CellId.Input 0] (fun xs => xs.headD 0 + 1)).1
        = Except.ok wReactor1.computes.index ∧
      (wReactor1.create_compute [CellId.Input 0]
          (fun xs => xs.headD 0 + 1)).2.computes.get wReactor1.computes.index
        = some { value := (fun xs => xs.headD 0 + 1) [1]
                 dependencies := [CellId.Input 0]
                 func := fun xs => xs.headD 0 + 1, callbacks := Table.new } := by
  have h := C6_create_compute_success wReactor1 [CellId.Input 0]
    (fun xs => xs.headD 0 + 1) (by decide)
  rcases h with ⟨vals, hmap, hok, hget⟩
  have hv : vals = [1] := by
    have : [some 1] = vals.map some := hmap
    cases vals with
    | nil => cases this
    | cons a trest =>
      cases trest with
      | nil =>
        rw [List.map_cons] at this
        have ha := (List.cons.inj this).1
        rw [Option.some.inj ha]
      | cons b trest2 => cases (List.cons.inj this).2
  subst hv
  exact ⟨[1], hmap, hok, hget⟩

theorem C7_remove_callback_witness :
    (wReactor4.remove_callback 0 0).1 = Except.ok () ∧
    ((wReactor4.remove_callback 0 0).2.remove_callback 0 0).1
      = Except.error RemoveCallbackError.NonexistentCallback ∧
    ∀ ops : List (Nat × Nat),
      ∀ e ∈ setValueTrace (wReactor4.remove_callback 0 0).2 ops,
      ¬(e.1 = 0 ∧ e.2.1 = 0) :=
  (C7_remove_callback wReactor4 0 0 wReachable4).2.2 wCellOld0 () rfl rfl

theorem C9_first_missing_dependency_witness :
    (wReactor1.create_compute [CellId.Input 7, CellId.Input 8]
        (fun xs => xs.headD 0)).1 = Except.error (CellId.Input 7) :=
  C9_first_missing_dependency wReactor1 [CellId.Input 7, CellId.Input 8]
    (fun xs => xs.headD 0) (CellId.Input 7) rfl

end Ops

end React
